import Mathlib

/-!
Verification of the sophios recursive fixed-point workflow compiler
(src/sophios/compiler.py) against its natural-language specification.

The Python source is shallowly embedded: pure fragments become Lean
functions, the mutable graph accumulators become explicit state passing,
Python dicts become association lists, and fallible code returns
`Except String`.  Helpers that live in modules not shipped with the
source tree (utils.py, wic_types.py) are modelled from the spec and are
marked as such in their doc comments.
-/

namespace Sophios

/-! ## Fixed-point driver (compile_workflow, compiler.py lines 26-101)

The driver is parametric in what one rewriter pass does: `once` is the
action of `compile_workflow_once` on the AST it returns in
`compiler_info.rose.data.yml` (NodeData is defined in wic_types.py,
which is not in the source tree; per spec section 3, the node payload
carries the AST that the equality test of section 4.4 compares), and
`onceG` is the action of one pass on the deep-copied graph accumulator
list.  `GraphFields` models one `GraphReps` element: `objId` stands for
Python object identity, the remaining fields are the graphviz body and
the GraphData name/nodes/edges/subgraphs that compile_workflow commits
element-wise at lines 88-95. -/

structure GraphFields where
  objId : Nat
  name : String
  nodes : List String
  edges : List (String × String)
  subgraphs : List String
  body : List String
deriving DecidableEq, Repr

/-- Model of `copy.deepcopy(subgraphs_)` (compiler.py line 60): the copy
has the same field contents but is a fresh object (fresh identity). -/
def deepcopyGraphs (gs : List GraphFields) : List GraphFields :=
  gs.map (fun g => { g with objId := 0 })

/-- Model of the element-wise overwrite at compiler.py lines 88-95: each
caller-visible element keeps its identity but receives all content
fields (graphviz body, graphdata name/nodes/edges/subgraphs) from the
corresponding element of the last speculative copy. -/
def commitGraphs (orig fin_ : List GraphFields) : List GraphFields :=
  List.zipWith (fun o l => { l with objId := o.objId }) orig fin_

/-- Iteration ceiling `max_iters` of compile_workflow (compiler.py line 57). -/
def max_iters : Nat := 100

/-- Model of the while loop of compile_workflow (compiler.py lines 59-72).
`fuel` is the remaining iteration budget (`max_iters - i`); `i` is the
Python loop counter; `lastG` is the graph-accumulator copy produced by
the most recent executed iteration.  Returns the final AST held in the
last CompilerInfo, the loop counter after exit, the last iteration's
graph copies, and whether the loop exited by convergence (structural
equality of input and output AST) rather than by exhausting the budget. -/
def cwLoop {α : Type} [DecidableEq α] (once : α → α)
    (onceG : α → List GraphFields → List GraphFields)
    (subgraphs_ : List GraphFields) :
    Nat → α → Nat → List GraphFields → α × Nat × List GraphFields × Bool
  | 0, ast, i, lastG => (ast, i, lastG, false)
  | fuel + 1, ast, i, _lastG =>
    let gs := onceG ast (deepcopyGraphs subgraphs_)
    let y := once ast
    if y = ast then (y, i + 1, gs, true)
    else cwLoop once onceG subgraphs_ fuel y (i + 1) gs

/-- Model of compile_workflow (compiler.py lines 26-101).  After the
while loop, the commit loop `for i, subgraph_ in enumerate(subgraphs_)`
(line 88) rebinds the Python variable `i`: when `subgraphs_` is
non-empty, `i` equals `len(subgraphs_) - 1` at the divergence check on
line 97, not the iteration count.  `i2` reproduces that rebinding
faithfully.  The committed accumulators are returned only on the normal
path, matching what the caller observes from a successful return. -/
def compile_workflow {α : Type} [DecidableEq α] (once : α → α)
    (onceG : α → List GraphFields → List GraphFields)
    (subgraphs_ : List GraphFields) (ast : α) :
    Except String (α × List GraphFields) :=
  let r := cwLoop once onceG subgraphs_ max_iters ast 0 []
  let committed := commitGraphs subgraphs_ r.2.2.1
  let i2 := if subgraphs_.length = 0 then r.2.1 else subgraphs_.length - 1
  if i2 = max_iters then
    Except.error "Error! Maximum number of iterations (100) reached in compile_workflow!"
  else Except.ok (r.1, committed)

/-- Rewriter that modifies the AST on every application: the fixed-point
loop never converges on it. -/
def divergingOnce : Nat → Nat := fun n => n + 1

/-- Graph action of a pass that adds nothing (sufficient for exercising
the driver's control flow). -/
def onceGId : Nat → List GraphFields → List GraphFields := fun _ gs => gs

/-- Concrete root graph accumulator, as passed by main.py line 148. -/
def g0 : GraphFields := { objId := 7, name := "root", nodes := [], edges := [],
                          subgraphs := [], body := [] }

/-- Helper: a run of the while-loop model that exits by convergence
returns a fixed point of the rewriter. -/
theorem cwLoop_converged_fixed_point {α : Type} [DecidableEq α] (once : α → α)
    (onceG : α → List GraphFields → List GraphFields)
    (subgraphs_ : List GraphFields) :
    ∀ (fuel : Nat) (ast : α) (i : Nat) (lastG : List GraphFields),
    (cwLoop once onceG subgraphs_ fuel ast i lastG).2.2.2 = true →
    once (cwLoop once onceG subgraphs_ fuel ast i lastG).1 =
      (cwLoop once onceG subgraphs_ fuel ast i lastG).1 := by
  intro fuel
  induction fuel with
  | zero => intro ast i lastG h; simp [cwLoop] at h
  | succ n ih =>
    intro ast i lastG h
    by_cases hc : once ast = ast
    · simp only [cwLoop, if_pos hc]
      simp [hc]
    · simp only [cwLoop, if_neg hc] at h ⊢
      exact ih (once ast) (i + 1) _ h

/-- Helper: the last-executed iteration's graph copies were computed by
applying one pass to a fresh deep copy of the original accumulators,
with the iteration's input AST being some iterate of the rewriter. -/
theorem cwLoop_lastG_shape {α : Type} [DecidableEq α] (once : α → α)
    (onceG : α → List GraphFields → List GraphFields)
    (subgraphs_ : List GraphFields) :
    ∀ (fuel : Nat) (ast : α) (i : Nat) (lastG : List GraphFields), 0 < fuel →
    ∃ m : Nat, (cwLoop once onceG subgraphs_ fuel ast i lastG).2.2.1 =
      onceG (once^[m] ast) (deepcopyGraphs subgraphs_) := by
  intro fuel
  induction fuel with
  | zero => intro ast i lastG h; omega
  | succ n ih =>
    intro ast i lastG _
    by_cases hc : once ast = ast
    · exact ⟨0, by simp [cwLoop, if_pos hc]⟩
    · rcases Nat.eq_zero_or_pos n with hn | hn
      · subst hn
        exact ⟨0, by simp [cwLoop, if_neg hc]⟩
      · obtain ⟨m, hm⟩ := ih (once ast) (i + 1)
          (onceG ast (deepcopyGraphs subgraphs_)) hn
        refine ⟨m + 1, ?_⟩
        simp only [cwLoop, if_neg hc]
        rw [hm, Function.iterate_succ_apply]

/-- C1.  The claim says a run on which the rewriter never converges must
raise the fixed-point divergence error instead of returning a
CompilerInfo.  The code contradicts this: the commit loop
`for i, subgraph_ in enumerate(subgraphs_)` at compiler.py line 88
rebinds the loop counter `i` before the `i == max_iters` check at line
97, so whenever `subgraphs_` is non-empty (callers always pass the root
graph, main.py line 148) and its length is not 101, a diverging run
returns the 100th iteration's CompilerInfo normally.  First conjunct:
with one subgraph and an always-modifying rewriter, the model returns
`Except.ok`.  Second conjunct: with an empty subgraph list the rebinding
does not happen and the intended error is raised, confirming that the
divergence check itself is reachable only in that degenerate case. -/
theorem compile_workflow_divergence_silent_return :
    compile_workflow divergingOnce onceGId [g0] 0 = Except.ok (100, [g0]) ∧
    compile_workflow divergingOnce onceGId ([] : List GraphFields) 0 =
      Except.error "Error! Maximum number of iterations (100) reached in compile_workflow!" := by
  constructor
  · rfl
  · rfl

/-- C2.  Whenever compile_workflow returns normally with the loop having
exited by structural equality of an iteration's input and output AST
(rather than by hitting the ceiling), the returned AST is a fixed point
of one more application of the rewriter. -/
theorem compile_workflow_returns_fixed_point {α : Type} [DecidableEq α]
    (once : α → α) (onceG : α → List GraphFields → List GraphFields)
    (subgraphs_ : List GraphFields) (ast : α) (y : α) (gs : List GraphFields)
    (hconv : (cwLoop once onceG subgraphs_ max_iters ast 0 []).2.2.2 = true)
    (hok : compile_workflow once onceG subgraphs_ ast = Except.ok (y, gs)) :
    once y = y := by
  have hy : y = (cwLoop once onceG subgraphs_ max_iters ast 0 []).1 := by
    have hok2 : (if (if subgraphs_.length = 0
          then (cwLoop once onceG subgraphs_ max_iters ast 0 []).2.1
          else subgraphs_.length - 1) = max_iters then
        (Except.error "Error! Maximum number of iterations (100) reached in compile_workflow!" :
          Except String (α × List GraphFields))
      else Except.ok ((cwLoop once onceG subgraphs_ max_iters ast 0 []).1,
        commitGraphs subgraphs_ (cwLoop once onceG subgraphs_ max_iters ast 0 []).2.2.1)) =
        Except.ok (y, gs) := hok
    split at hok2 <;> split at hok2 <;>
      first
        | exact (congrArg Prod.fst (Except.ok.inj hok2)).symm
        | exact absurd hok2 (by simp)
  rw [hy]
  exact cwLoop_converged_fixed_point once onceG subgraphs_ max_iters ast 0 [] hconv

/-- Witness for C2: a rewriter already at a fixed point converges on the
first iteration and the theorem applies. -/
theorem compile_workflow_returns_fixed_point_witness :
    (fun n : Nat => n) 0 = 0 :=
  compile_workflow_returns_fixed_point (fun n : Nat => n) onceGId [g0] 0 0
    (commitGraphs [g0] (onceGId 0 (deepcopyGraphs [g0]))) (by rfl) (by rfl)

/-- Content fields of a graph accumulator element (everything except
object identity): graphdata name, nodes, edges, subgraphs and the
graphviz body, i.e. exactly what lines 88-95 overwrite. -/
def contentOf (g : GraphFields) :
    String × List String × List (String × String) × List String × List String :=
  (g.name, g.nodes, g.edges, g.subgraphs, g.body)

/-- C6.  After compile_workflow returns, the caller's subgraphs list
holds the identical objects that were passed in (same positions, object
identity never replaced, modelled by `objId`), and the content fields of
each element are exactly those produced by the final (last-executed)
iteration of compile_workflow_once, which ran on a fresh deep copy of
the original accumulators — so nodes and edges accumulated by earlier
speculative iterations do not appear.  `hlen` records that one rewriter
pass never changes the number of graph accumulators (the source only
mutates the elements). -/
theorem compile_workflow_commits_final_iteration {α : Type} [DecidableEq α]
    (once : α → α) (onceG : α → List GraphFields → List GraphFields)
    (subgraphs_ : List GraphFields) (ast : α) (y : α) (gs : List GraphFields)
    (hlen : ∀ (a : α) (l : List GraphFields), (onceG a l).length = l.length)
    (hok : compile_workflow once onceG subgraphs_ ast = Except.ok (y, gs)) :
    gs.length = subgraphs_.length ∧
    ∃ m : Nat,
      gs = commitGraphs subgraphs_ (onceG (once^[m] ast) (deepcopyGraphs subgraphs_)) ∧
      ∀ (j : Nat) (h1 : j < gs.length) (h2 : j < subgraphs_.length)
        (h3 : j < (onceG (once^[m] ast) (deepcopyGraphs subgraphs_)).length),
        (gs.get ⟨j, h1⟩).objId = (subgraphs_.get ⟨j, h2⟩).objId ∧
        contentOf (gs.get ⟨j, h1⟩) =
          contentOf ((onceG (once^[m] ast) (deepcopyGraphs subgraphs_)).get ⟨j, h3⟩) := by
  have hgs : gs = commitGraphs subgraphs_
      (cwLoop once onceG subgraphs_ max_iters ast 0 []).2.2.1 := by
    have hok2 : (if (if subgraphs_.length = 0
          then (cwLoop once onceG subgraphs_ max_iters ast 0 []).2.1
          else subgraphs_.length - 1) = max_iters then
        (Except.error "Error! Maximum number of iterations (100) reached in compile_workflow!" :
          Except String (α × List GraphFields))
      else Except.ok ((cwLoop once onceG subgraphs_ max_iters ast 0 []).1,
        commitGraphs subgraphs_ (cwLoop once onceG subgraphs_ max_iters ast 0 []).2.2.1)) =
        Except.ok (y, gs) := hok
    split at hok2 <;> split at hok2 <;>
      first
        | exact (congrArg Prod.snd (Except.ok.inj hok2)).symm
        | exact absurd hok2 (by simp)
  obtain ⟨m, hm⟩ := cwLoop_lastG_shape once onceG subgraphs_ max_iters ast 0 []
    (by norm_num [max_iters])
  rw [hm] at hgs
  have hLlen : (onceG (once^[m] ast) (deepcopyGraphs subgraphs_)).length =
      subgraphs_.length := by
    rw [hlen, deepcopyGraphs, List.length_map]
  have hlen' : gs.length = subgraphs_.length := by
    rw [hgs, commitGraphs, List.length_zipWith, hLlen, Nat.min_self]
  refine ⟨hlen', m, hgs, ?_⟩
  intro j h1 h2 h3
  subst hgs
  simp only [commitGraphs, List.get_eq_getElem, List.getElem_zipWith]
  exact ⟨trivial, rfl⟩

/-- Witness for C6: a single root graph with an identity rewriter; the
commit equals the first (and only) iteration's output. -/
theorem compile_workflow_commits_final_iteration_witness :
    (commitGraphs [g0] (onceGId 0 (deepcopyGraphs [g0]))).length = [g0].length :=
  (compile_workflow_commits_final_iteration (fun n : Nat => n) onceGId [g0] 0 0
    (commitGraphs [g0] (onceGId 0 (deepcopyGraphs [g0])))
    (fun _ l => rfl) (by rfl)).1

/-! ## Explicit edge definition sites (compile_workflow_once, compiler.py
lines 458-483)

Python dicts keyed by strings are embedded as association lists.
`updateAssoc` is `d.update({k: v})` / `d[k] = v`: it replaces the value
in place when the key exists and appends otherwise. -/

def updateAssoc {κ β : Type} [DecidableEq κ] : List (κ × β) → κ → β → List (κ × β)
  | [], k, v => [(k, v)]
  | (k', v') :: rest, k, v =>
    if k' = k then (k, v) :: rest else (k', v') :: updateAssoc rest k v

/-- Python dict lookup `d.get(k)` on the association-list embedding. -/
def lookupAssoc {κ β : Type} [DecidableEq κ] : List (κ × β) → κ → Option β
  | [], _ => none
  | (k', v') :: rest, k => if k' = k then some v' else lookupAssoc rest k

/-- ExplicitEdgeDefs / ExplicitEdgeCalls: edge label → (namespace path of
the defining step, output variable name). -/
abbrev EdgeMap := List (String × (List String × String))

/-- Value stored inside one `out:` dict entry: either a wic_anchor
carrying an edge label, or some other value. -/
inductive OutInner
  | anchor (label : String)
  | other
deriving DecidableEq, Repr

/-- One element of a step's `out:` list: a plain output-key string or a
dict (association list of output key to inner value). -/
inductive OutEntry
  | plain (s : String)
  | tagged (keys : List (String × OutInner))
deriving DecidableEq, Repr

/-- Model of the per-entry body of the `out:` loop (compiler.py lines
463-483).  A dict entry with several keys makes the source print a
warning and still process `keys[0]`; an empty dict raises IndexError at
`keys[0]`.  A fresh anchor label replaces the entry by the plain output
key and adds one definition (and one dummy call) for the label; a label
already present in the accumulated definitions raises. -/
def process_out_entry (namespaces : List String) (step_name_or_key : String)
    (defs calls : EdgeMap) (entry : OutEntry) :
    Except String (OutEntry × EdgeMap × EdgeMap) :=
  match entry with
  | .plain s => .ok (.plain s, defs, calls)
  | .tagged [] => .error "IndexError: list index out of range"
  | .tagged ((out_key, inner) :: restKeys) =>
    match inner with
    | .other => .ok (.tagged ((out_key, inner) :: restKeys), defs, calls)
    | .anchor edgedef =>
      match lookupAssoc defs edgedef with
      | none =>
        .ok (.plain out_key,
             updateAssoc defs edgedef (namespaces ++ [step_name_or_key], out_key),
             updateAssoc calls edgedef (namespaces ++ [step_name_or_key], out_key))
      | some _ => .error ("Error! Multiple definitions of &" ++ edgedef ++ "!")

/-- Model of the whole `out:` loop of one step: entries are processed in
order, threading the accumulated definitions and call sites, stopping at
the first error. -/
def process_out_list (namespaces : List String) (step_name_or_key : String) :
    List OutEntry → EdgeMap → EdgeMap →
    Except String (List OutEntry × EdgeMap × EdgeMap)
  | [], defs, calls => .ok ([], defs, calls)
  | e :: rest, defs, calls => do
    let (e', defs', calls') ← process_out_entry namespaces step_name_or_key defs calls e
    let (rest', defs2, calls2) ← process_out_list namespaces step_name_or_key rest defs' calls'
    .ok (e' :: rest', defs2, calls2)

/-- Updating at a key makes lookup at that key return the new value. -/
theorem lookup_updateAssoc_self {κ β : Type} [DecidableEq κ] (d : List (κ × β)) (k : κ) (v : β) :
    lookupAssoc (updateAssoc d k v) k = some v := by
  induction d with
  | nil => simp [updateAssoc, lookupAssoc]
  | cons p rest ih =>
    obtain ⟨k', v'⟩ := p
    by_cases h : k' = k
    · simp [updateAssoc, lookupAssoc, h]
    · simp only [updateAssoc, if_neg h, lookupAssoc]
      simpa [h] using ih

/-- Updating at a key leaves lookups at every other key unchanged. -/
theorem lookup_updateAssoc_ne {κ β : Type} [DecidableEq κ] (d : List (κ × β)) (k l : κ) (v : β)
    (hne : l ≠ k) : lookupAssoc (updateAssoc d k v) l = lookupAssoc d l := by
  induction d with
  | nil =>
    simp only [updateAssoc, lookupAssoc]
    rw [if_neg (fun hh => hne hh.symm)]
  | cons p rest ih =>
    obtain ⟨k', v'⟩ := p
    by_cases h : k' = k
    · subst h
      simp only [updateAssoc, if_pos rfl, lookupAssoc]
      rw [if_neg (fun hh => hne hh.symm), if_neg (fun hh => hne hh.symm)]
    · simp only [updateAssoc, if_neg h, lookupAssoc]
      by_cases h2 : k' = l
      · rw [if_pos h2, if_pos h2]
      · rw [if_neg h2, if_neg h2]
        exact ih

/-- C3.  Processing an `out:` entry whose first key carries an anchor:
if the label is already present in the accumulated explicit edge
definitions, compilation raises the duplicate-definition error; if the
label is fresh, the entry is replaced by the plain output key and
exactly one definition mapping the label to (namespace path of the
defining step, output variable name) is added — the label now resolves
to that pair and every other label resolves as before. -/
theorem duplicate_edge_definition_is_error
    (namespaces : List String) (step_name_or_key : String)
    (defs calls : EdgeMap) (out_key label : String)
    (restKeys : List (String × OutInner)) :
    (∀ v, lookupAssoc defs label = some v →
      process_out_entry namespaces step_name_or_key defs calls
          (.tagged ((out_key, .anchor label) :: restKeys)) =
        .error ("Error! Multiple definitions of &" ++ label ++ "!")) ∧
    (lookupAssoc defs label = none →
      process_out_entry namespaces step_name_or_key defs calls
          (.tagged ((out_key, .anchor label) :: restKeys)) =
        .ok (.plain out_key,
             updateAssoc defs label (namespaces ++ [step_name_or_key], out_key),
             updateAssoc calls label (namespaces ++ [step_name_or_key], out_key)) ∧
      lookupAssoc (updateAssoc defs label (namespaces ++ [step_name_or_key], out_key)) label =
        some (namespaces ++ [step_name_or_key], out_key) ∧
      ∀ l, l ≠ label →
        lookupAssoc (updateAssoc defs label (namespaces ++ [step_name_or_key], out_key)) l =
          lookupAssoc defs l) := by
  constructor
  · intro v hv
    simp [process_out_entry, hv]
  · intro hnone
    refine ⟨by simp [process_out_entry, hnone], lookup_updateAssoc_self _ _ _, ?_⟩
    intro l hl
    exact lookup_updateAssoc_ne _ _ _ _ hl

/-- Witness for C3: with one definition of label "e1" already recorded,
re-defining it errors; a fresh label "e2" is added exactly once. -/
theorem duplicate_edge_definition_is_error_witness :
    process_out_entry ["root"] "step1" [("e1", (["root"], "o"))] []
        (.tagged [("out1", .anchor "e1")]) =
      .error "Error! Multiple definitions of &e1!" ∧
    process_out_entry ["root"] "step1" [("e1", (["root"], "o"))] []
        (.tagged [("out1", .anchor "e2")]) =
      .ok (.plain "out1",
           [("e1", (["root"], "o")), ("e2", (["root", "step1"], "out1"))],
           [("e2", (["root", "step1"], "out1"))]) :=
  ⟨(duplicate_edge_definition_is_error ["root"] "step1" [("e1", (["root"], "o"))] []
      "out1" "e1" []).1 (["root"], "o") rfl,
   ((duplicate_edge_definition_is_error ["root"] "step1" [("e1", (["root"], "o"))] []
      "out1" "e2" []).2 rfl).1⟩

/-! ## Cross-namespace alias resolution (compile_workflow_once, compiler.py
lines 510-574) -/

/-- Modelled from the spec: `utils.partition_by_lowest_common_ancestor`
(utils.py is not in the source tree).  Spec section 4.1: it returns the
shared prefix of the two namespace paths and the first path's tail after
the first point of divergence; the compiler calls it twice with the
arguments swapped to obtain both tails. -/
def partition_by_lowest_common_ancestor :
    List String → List String → List String × List String
  | x :: xs, y :: ys =>
    if x = y then
      let p := partition_by_lowest_common_ancestor xs ys
      (x :: p.1, p.2)
    else ([], x :: xs)
  | xs, _ => ([], xs)

/-- The shared-prefix component is symmetric in the two paths, so the
`assert nss_def_inits == nss_call_inits` at compiler.py line 538 never
fires. -/
theorem partition_inits_eq (a b : List String) :
    (partition_by_lowest_common_ancestor a b).1 =
      (partition_by_lowest_common_ancestor b a).1 := by
  induction a generalizing b with
  | nil => cases b <;> simp [partition_by_lowest_common_ancestor]
  | cons x xs ih =>
    cases b with
    | nil => simp [partition_by_lowest_common_ancestor]
    | cons y ys =>
      by_cases h : x = y
      · subst h
        simp [partition_by_lowest_common_ancestor, ih ys]
      · have h2 : ¬y = x := fun hh => h hh.symm
        simp [partition_by_lowest_common_ancestor, h, h2]

/-- Resolved value of one step `in:` binding after the alias branch. -/
inductive InVal
  | source (s : String)
  | raw (s : String)
deriving DecidableEq, Repr

/-- Character-level worker for `splitTriple`. -/
def splitTripleAux : List Char → List Char → List (List Char)
  | [], acc => [acc.reverse]
  | '_' :: '_' :: '_' :: rest, acc => acc.reverse :: splitTripleAux rest []
  | c :: rest, acc => splitTripleAux rest (c :: acc)

/-- Python `s.split('___')`, the fixed triple-underscore namespacing
convention (spec section 4.1).  Defined by structural recursion over the
character list so that concrete instances evaluate inside the kernel. -/
def splitTriple (s : String) : List String :=
  (splitTripleAux s.toList []).map List.asString

/-- Definition-site namespace path of an alias: the stored path plus the
embedded path split out of the stored variable name (compiler.py lines
528-530). -/
def nssDefOf (nss_def_init : List String) (var : String) : List String :=
  nss_def_init ++ (splitTriple var).dropLast

/-- Call-site namespace path of an alias call (compiler.py lines 529-532). -/
def nssCallOf (namespaces : List String) (step_name_or_key arg_key : String) :
    List String :=
  namespaces ++ [step_name_or_key] ++ (splitTriple arg_key).dropLast

/-- Model of the `wic_alias` branch of the `in:` loop (compiler.py lines
510-574).  The subsequent graph-edge bookkeeping (lines 576-616) only
mutates the graph accumulators and is not modelled here.  Returns the
rewritten binding together with the updated inputs_workflow manifest and
explicit edge call sites. -/
def resolve_alias {δ : Type} (is_root testing : Bool)
    (defs calls : EdgeMap) (inputs_workflow : List (String × δ)) (in_dict : δ)
    (namespaces : List String) (step_name_or_key arg_key aliasLabel : String) :
    Except String (InVal × List (String × δ) × EdgeMap) :=
  let in_name := step_name_or_key ++ "___" ++ arg_key
  match lookupAssoc defs aliasLabel with
  | none =>
    if is_root && !testing then
      .error ("Error! No definition found for !&" ++ aliasLabel ++ "!")
    else
      .ok (.source in_name,
           updateAssoc inputs_workflow in_name in_dict,
           updateAssoc calls in_name (namespaces ++ [step_name_or_key], arg_key))
  | some (nss_def_init, var) =>
    let nss_def := nssDefOf nss_def_init var
    let nss_call := nssCallOf namespaces step_name_or_key arg_key
    let nss_def_parts := partition_by_lowest_common_ancestor nss_def nss_call
    let nss_call_parts := partition_by_lowest_common_ancestor nss_call nss_def
    if nss_def_parts.1 ≠ nss_call_parts.1 then
      .error "AssertionError"
    else if nss_call_parts.2.length = 1 then
      match nss_def_parts.2 with
      | [] => .error "IndexError: list index out of range"
      | t0 :: trest =>
        .ok (.source (t0 ++ "/" ++ String.intercalate "___" (trest ++ [var])),
             inputs_workflow, calls)
    else if nss_call_parts.2.length > 1 then
      .ok (.source in_name,
           updateAssoc inputs_workflow in_name in_dict,
           updateAssoc calls in_name (nss_def_init, var))
    else
      if nss_def = nss_call then
        .error "Error! Cannot self-reference the same step!"
      else
        .error "Error! len(nss_call_tails) == 0! Please file a bug report!"

/-- C4.  For a binding that names a previously defined output alias,
after partitioning the definition and call namespace paths by their
lowest common ancestor: a call-site tail of length exactly 1 rewrites
the binding to a direct sibling-output reference `namespace/output`
built from the definition tail, leaving the manifests untouched; a
call-site tail of length greater than 1 instead adds a pass-through
input named with the triple-underscore convention to the current unit's
inputs_workflow and records the call in explicit_edge_calls, binding the
parameter to that input; a tail of length 0 with equal definition and
call paths raises the self-reference error. -/
theorem explicit_alias_binding_resolution {δ : Type} (is_root testing : Bool)
    (defs calls : EdgeMap) (inputs_workflow : List (String × δ)) (in_dict : δ)
    (namespaces : List String) (step_name_or_key arg_key aliasLabel : String)
    (nss_def_init : List String) (var : String)
    (hdef : lookupAssoc defs aliasLabel = some (nss_def_init, var)) :
    ((partition_by_lowest_common_ancestor (nssCallOf namespaces step_name_or_key arg_key)
        (nssDefOf nss_def_init var)).2.length = 1 →
      ∀ t0 trest, (partition_by_lowest_common_ancestor (nssDefOf nss_def_init var)
          (nssCallOf namespaces step_name_or_key arg_key)).2 = t0 :: trest →
        resolve_alias is_root testing defs calls inputs_workflow in_dict
            namespaces step_name_or_key arg_key aliasLabel =
          .ok (.source (t0 ++ "/" ++ String.intercalate "___" (trest ++ [var])),
               inputs_workflow, calls)) ∧
    (1 < (partition_by_lowest_common_ancestor (nssCallOf namespaces step_name_or_key arg_key)
        (nssDefOf nss_def_init var)).2.length →
      resolve_alias is_root testing defs calls inputs_workflow in_dict
          namespaces step_name_or_key arg_key aliasLabel =
        .ok (.source (step_name_or_key ++ "___" ++ arg_key),
             updateAssoc inputs_workflow (step_name_or_key ++ "___" ++ arg_key) in_dict,
             updateAssoc calls (step_name_or_key ++ "___" ++ arg_key) (nss_def_init, var))) ∧
    ((partition_by_lowest_common_ancestor (nssCallOf namespaces step_name_or_key arg_key)
        (nssDefOf nss_def_init var)).2.length = 0 →
      nssDefOf nss_def_init var = nssCallOf namespaces step_name_or_key arg_key →
      resolve_alias is_root testing defs calls inputs_workflow in_dict
          namespaces step_name_or_key arg_key aliasLabel =
        .error "Error! Cannot self-reference the same step!") := by
  have hassert : ¬ ((partition_by_lowest_common_ancestor (nssDefOf nss_def_init var)
      (nssCallOf namespaces step_name_or_key arg_key)).1 ≠
      (partition_by_lowest_common_ancestor (nssCallOf namespaces step_name_or_key arg_key)
        (nssDefOf nss_def_init var)).1) := by
    simp [partition_inits_eq]
  refine ⟨?_, ?_, ?_⟩
  · intro hc t0 trest hd
    simp [resolve_alias, hdef, hassert, hc, hd]
  · intro hc
    have hc1 : ¬ (partition_by_lowest_common_ancestor
        (nssCallOf namespaces step_name_or_key arg_key)
        (nssDefOf nss_def_init var)).2.length = 1 := by omega
    simp [resolve_alias, hdef, hassert, hc1, hc]
  · intro hc heq
    have hc1 : ¬ (partition_by_lowest_common_ancestor
        (nssCallOf namespaces step_name_or_key arg_key)
        (nssDefOf nss_def_init var)).2.length = 1 := by omega
    have hc2 : ¬ 1 < (partition_by_lowest_common_ancestor
        (nssCallOf namespaces step_name_or_key arg_key)
        (nssDefOf nss_def_init var)).2.length := by omega
    simp only [resolve_alias, hdef]
    simp only [hassert, ite_false, ite_true, if_neg hc1, if_neg hc2]
    rw [if_pos heq]

/-- Witness for C4: definition at root/step1, call two levels deeper at
root/sub/stepY — the call tail has length 2, so a pass-through input is
created and the call recorded. -/
theorem explicit_alias_binding_resolution_witness :
    resolve_alias (δ := String) false false
        [("lbl", (["wf___step1"], "out1"))] [] [] "File"
        ["wf___sub"] "sub___stepY" "param" "lbl" =
      .ok (.source "sub___stepY___param",
           [("sub___stepY___param", "File")],
           [("sub___stepY___param", (["wf___step1"], "out1"))]) :=
  (explicit_alias_binding_resolution (δ := String) false false
      [("lbl", (["wf___step1"], "out1"))] [] [] "File"
      ["wf___sub"] "sub___stepY" "param" "lbl" ["wf___step1"] "out1" rfl).2.1
    (by decide)

/-! ## Required parameters of a resolved step (compile_workflow_once,
compiler.py lines 390-409) -/

/-- Python values that can appear as a CWL input `default`.  Truthiness
follows Python: 0, "", False and None are falsy. -/
inductive PyV
  | vInt (n : Int)
  | vStr (s : String)
  | vBool (b : Bool)
  | vNull
deriving DecidableEq, Repr

/-- Python truthiness of a value. -/
def PyV.truthy : PyV → Bool
  | .vInt n => n ≠ 0
  | .vStr s => s ≠ ""
  | .vBool b => b
  | .vNull => false

/-- Truthiness of `in_tool[arg].get('default')`: an absent key yields
None, which is falsy. -/
def defaultTruthy : Option PyV → Bool
  | none => false
  | some v => v.truthy

/-- Declared CWL type of an input: a type string, a type list (union),
or any other shape (e.g. a nested record/array dict). -/
inductive CwlType
  | str (s : String)
  | union (items : List String)
  | otherTy
deriving DecidableEq, Repr

/-- The optionality test of compiler.py lines 396-397: the last
character of a string type is `?` (the source indexes `type[-1]`), or a
type list contains `'null'`. -/
def isNullable : CwlType → Bool
  | .str s => s.toList.getLast? == some '?'
  | .union items => items.contains "null"
  | .otherTy => false

/-- One declared input of a resolved tool: `{'default': ..., 'type': ...}`. -/
structure InToolEntry where
  default : Option PyV
  type : CwlType
deriving DecidableEq, Repr

/-- Model of the CommandLineTool branch (compiler.py lines 393-397): an
argument is required unless its default is truthy or its declared type
is nullable. -/
def args_required_clt (in_tool : List (String × InToolEntry)) : List String :=
  (in_tool.filter
    (fun p => !(defaultTruthy p.2.default || isNullable p.2.type))).map (fun p => p.1)

/-- Definition following the claim\'s words (for comparison with the
source computation): required is exactly the declared inputs that have
no default at all and whose declared type is not nullable. -/
def args_required_claim (in_tool : List (String × InToolEntry)) : List String :=
  (in_tool.filter
    (fun p => p.2.default = none && !isNullable p.2.type)).map (fun p => p.1)

/-- Definition following the amended claim\'s words: required is exactly
the declared inputs whose default is absent or falsy and whose declared
type is not nullable. -/
def args_required_amended (in_tool : List (String × InToolEntry)) : List String :=
  (in_tool.filter
    (fun p => (p.2.default = none || !(defaultTruthy p.2.default)) &&
              !isNullable p.2.type)).map (fun p => p.1)

/-- Value bound to a step `in:` parameter before evaluation. -/
inductive InBind
  | rawStr (s : String)
  | boundSrc (s : String)
deriving DecidableEq, Repr

/-- The identity-binding loop of the Workflow branch (compiler.py lines
404-407): add `key: key` for every required key with no existing
binding, never overwriting existing bindings. -/
def addIdentityBindings (req : List String) (step_in : List (String × InBind)) :
    List (String × InBind) :=
  req.foldl
    (fun acc key => if (lookupAssoc acc key).isSome then acc
                    else acc ++ [(key, InBind.rawStr key)]) step_in

/-- Model of the step-class dispatch (compiler.py lines 392-409): a
CommandLineTool computes args_required by the optionality filter and
leaves the bindings alone; a Workflow requires every declared input and
adds identity bindings for unbound required inputs; any other class
raises the unknown-step-class error. -/
def resolve_step_args (toolClass : String) (in_tool : List (String × InToolEntry))
    (step_in : List (String × InBind)) :
    Except String (List String × List (String × InBind)) :=
  if toolClass = "CommandLineTool" then
    .ok (args_required_clt in_tool, step_in)
  else if toolClass = "Workflow" then
    .ok (in_tool.map (fun p => p.1),
         addIdentityBindings (in_tool.map (fun p => p.1)) step_in)
  else
    .error ("Unknown class " ++ toolClass)

/-- A key found in an association list is still found, with the same
value, after appending entries on the right. -/
theorem lookupAssoc_append_some {κ β : Type} [DecidableEq κ] (d e : List (κ × β)) (k : κ)
    (v : β) (h : lookupAssoc d k = some v) : lookupAssoc (d ++ e) k = some v := by
  induction d with
  | nil => simp [lookupAssoc] at h
  | cons p r ih =>
    obtain ⟨k2, v2⟩ := p
    by_cases h2 : k2 = k
    · simp only [lookupAssoc, if_pos h2] at h
      simp [lookupAssoc, h2, h]
    · simp only [lookupAssoc, if_neg h2] at h
      simpa [lookupAssoc, h2] using ih h

/-- A key absent from an association list is looked up in the appended
entries. -/
theorem lookupAssoc_append_none {κ β : Type} [DecidableEq κ] (d e : List (κ × β)) (k : κ)
    (h : lookupAssoc d k = none) : lookupAssoc (d ++ e) k = lookupAssoc e k := by
  induction d with
  | nil => simp
  | cons p r ih =>
    obtain ⟨k2, v2⟩ := p
    by_cases h2 : k2 = k
    · simp [lookupAssoc, if_pos h2] at h
    · simp only [lookupAssoc, if_neg h2] at h
      simpa [lookupAssoc, h2] using ih h

/-- Existing bindings survive the identity-binding loop unchanged, and a
required key with no binding ends up bound to itself. -/
theorem lookup_identity_fold (req : List String) (acc : List (String × InBind))
    (k : String) :
    (∀ v, lookupAssoc acc k = some v →
      lookupAssoc (addIdentityBindings req acc) k = some v) ∧
    (k ∈ req → lookupAssoc acc k = none →
      lookupAssoc (addIdentityBindings req acc) k = some (InBind.rawStr k)) := by
  induction req generalizing acc with
  | nil =>
    exact ⟨fun v hv => hv, fun hk => absurd hk (List.not_mem_nil k)⟩
  | cons key rest ih =>
    have hstep : ∀ acc2 : List (String × InBind),
        addIdentityBindings (key :: rest) acc2 =
          addIdentityBindings rest
            (if (lookupAssoc acc2 key).isSome then acc2
             else acc2 ++ [(key, InBind.rawStr key)]) := by
      intro acc2
      simp only [addIdentityBindings, List.foldl_cons]
    constructor
    · intro v hv
      rw [hstep]
      by_cases hs : (lookupAssoc acc key).isSome = true
      · rw [if_pos hs]
        exact (ih acc).1 v hv
      · rw [if_neg hs]
        exact (ih _).1 v (lookupAssoc_append_some acc _ k v hv)
    · intro hk hnone
      rw [hstep]
      rcases List.mem_cons.mp hk with he | hrest
      · subst he
        have hs : ¬ (lookupAssoc acc k).isSome = true := by
          rw [hnone]
          simp
        rw [if_neg hs]
        refine (ih _).1 (InBind.rawStr k) ?_
        rw [lookupAssoc_append_none acc _ k hnone]
        simp [lookupAssoc]
      · by_cases hs : (lookupAssoc acc key).isSome = true
        · rw [if_pos hs]
          exact (ih acc).2 hrest hnone
        · rw [if_neg hs]
          by_cases hkk : key = k
          · subst hkk
            refine (ih _).1 (InBind.rawStr key) ?_
            rw [lookupAssoc_append_none acc _ key hnone]
            simp [lookupAssoc]
          · refine (ih _).2 hrest ?_
            rw [lookupAssoc_append_none acc _ k hnone]
            simp [lookupAssoc, hkk]

/-- Counterexample input: a parameter whose declared default is the
falsy value 0 and whose type is not nullable. -/
def falsyDefaultTool : List (String × InToolEntry) :=
  [("config", { default := some (PyV.vInt 0), type := CwlType.str "int" })]

/-- C5 counterexample.  The claim says required = inputs with *no*
default (and non-nullable type); the source tests `.get(\'default\')` for
truthiness, so an input whose default is the falsy value 0 is still
required: on `falsyDefaultTool` the code computes ["config"] while the
claim\'s set is empty. -/
theorem args_required_truthiness_counterexample :
    args_required_clt falsyDefaultTool = ["config"] ∧
    args_required_claim falsyDefaultTool = [] ∧
    args_required_clt falsyDefaultTool ≠ args_required_claim falsyDefaultTool := by
  refine ⟨by decide, by decide, by decide⟩

/-- C5 amended.  For an atomic CommandLineTool the computed required set
is exactly the declared inputs whose default is absent or falsy and
whose declared type is neither a string ending in `?` nor a list
containing `\'null\'`; for a composite Workflow every declared input is
required and each required input with no explicit binding receives an
identity binding while existing bindings are preserved; any other class
raises the unknown-step-class error. -/
theorem resolve_step_args_correct (in_tool : List (String × InToolEntry))
    (step_in : List (String × InBind)) :
    resolve_step_args "CommandLineTool" in_tool step_in =
      .ok (args_required_amended in_tool, step_in) ∧
    (∀ req step_in2, resolve_step_args "Workflow" in_tool step_in =
        .ok (req, step_in2) →
      req = in_tool.map (fun p => p.1) ∧
      (∀ k, k ∈ req → lookupAssoc step_in k = none →
        lookupAssoc step_in2 k = some (InBind.rawStr k)) ∧
      (∀ k v, lookupAssoc step_in k = some v → lookupAssoc step_in2 k = some v)) ∧
    (∀ c, c ≠ "CommandLineTool" → c ≠ "Workflow" →
      resolve_step_args c in_tool step_in = .error ("Unknown class " ++ c)) := by
  refine ⟨?_, ?_, ?_⟩
  · have hfilter : args_required_clt in_tool = args_required_amended in_tool := by
      unfold args_required_clt args_required_amended
      congr 1
      apply List.filter_congr
      intro p _
      cases hd : p.2.default with
      | none => simp [defaultTruthy, hd]
      | some v => simp [defaultTruthy, hd]
    simp [resolve_step_args, hfilter]
  · intro req step_in2 hok
    unfold resolve_step_args at hok
    rw [if_neg (by decide), if_pos rfl] at hok
    have hpair := Except.ok.inj hok
    have hreq : req = in_tool.map (fun p => p.1) :=
      (congrArg Prod.fst hpair).symm
    have hstep : step_in2 = addIdentityBindings (in_tool.map (fun p => p.1)) step_in :=
      (congrArg Prod.snd hpair).symm
    refine ⟨hreq, ?_, ?_⟩
    · intro k hk hnone
      rw [hstep]
      exact (lookup_identity_fold _ step_in k).2 (hreq ▸ hk) hnone
    · intro k v hv
      rw [hstep]
      exact (lookup_identity_fold _ step_in k).1 v hv
  · intro c hc1 hc2
    simp [resolve_step_args, hc1, hc2]

/-- Witness for C5: a Workflow with inputs x (unbound) and y (bound to a
source): x gets the identity binding, y keeps its binding; and an
unrecognized class raises, via the theorem. -/
theorem resolve_step_args_correct_witness :
    lookupAssoc ([("y", InBind.boundSrc "s1"), ("x", InBind.rawStr "x")]) "x" =
      some (InBind.rawStr "x") ∧
    lookupAssoc ([("y", InBind.boundSrc "s1"), ("x", InBind.rawStr "x")]) "y" =
      some (InBind.boundSrc "s1") ∧
    resolve_step_args "PythonTool" falsyDefaultTool [] =
      .error "Unknown class PythonTool" :=
  have h := resolve_step_args_correct
    [("x", { default := none, type := CwlType.str "File" }),
     ("y", { default := none, type := CwlType.str "File" })]
    [("y", InBind.boundSrc "s1")]
  have hwf := h.2.1 ["x", "y"]
    ([("y", InBind.boundSrc "s1"), ("x", InBind.rawStr "x")]) (by rfl)
  ⟨hwf.2.1 "x" (by decide) (by rfl),
   hwf.2.2 "y" (InBind.boundSrc "s1") (by rfl),
   (resolve_step_args_correct falsyDefaultTool []).2.2 "PythonTool"
     (by decide) (by decide)⟩

/-! ## Raw-token bindings (compile_workflow_once, compiler.py lines
646-700) -/

/-- A raw step-binding token: a hashable string, or an unhashable value
(e.g. a list or dict) together with its printed representation. -/
inductive RawTok
  | str (s : String)
  | unhashable (shown : String)
deriving DecidableEq, Repr

/-- What the f-string interpolation prints for the token. -/
def reprTok : RawTok → String
  | .str s => s
  | .unhashable shown => shown

/-- Model of the raw-token branch of the `in:` loop (compiler.py lines
646-700).  When raw CWL passthrough is disallowed and the token is not a
declared workflow input (or is unhashable), the source prints the
missing-`!ii` warning naming the variable and the workflow file and
calls `sys.exit(1)` (line 675); this fatal exit is the returned error
(the `raise` at lines 677-682 is unreachable because the inner
`if not args.allow_raw_cwl` is always true there).  Otherwise the token
is recorded in the input mapping (appending to an existing entry, line
695-698) and the binding is left un-evaluated (line 700).  The doc/label
merging at lines 684-691 touches only the local AST copy's inputs and is
not modelled. -/
def process_raw_arg (allow_raw_cwl : Bool) (yaml_stem : String)
    (inputs : List String) (input_mapping : List (String × List String))
    (in_name : String) (tok : RawTok) :
    Except String (List (String × List String) × RawTok) :=
  let declared := match tok with
    | .str s => inputs.contains s
    | .unhashable _ => false
  if !allow_raw_cwl && !declared then
    .error ("Warning! Did you forget to use !ii before " ++ reprTok tok ++
            " in " ++ yaml_stem ++ ".wic?")
  else
    let im2 := match tok with
      | .unhashable _ => input_mapping
      | .str s =>
        match lookupAssoc input_mapping s with
        | some l => updateAssoc input_mapping s (l ++ [in_name])
        | none => updateAssoc input_mapping s [in_name]
    .ok (im2, tok)

/-- C7.  A raw token that is not a declared workflow input fails fatally
when raw passthrough is disallowed, with a diagnostic naming both the
offending variable and the offending workflow file; a declared token is
left un-evaluated as the binding and is recorded in the input mapping
(appended to its entry, all other entries unchanged). -/
theorem raw_token_binding (allow_raw_cwl : Bool) (yaml_stem : String)
    (inputs : List String) (input_mapping : List (String × List String))
    (in_name s : String) :
    (allow_raw_cwl = false → s ∉ inputs →
      ∃ msg, process_raw_arg allow_raw_cwl yaml_stem inputs input_mapping
          in_name (.str s) = .error msg ∧
        (∃ a b, msg = a ++ s ++ b) ∧
        (∃ c d, msg = c ++ (yaml_stem ++ ".wic") ++ d)) ∧
    (s ∈ inputs →
      ∃ im2, process_raw_arg allow_raw_cwl yaml_stem inputs input_mapping
          in_name (.str s) = .ok (im2, .str s) ∧
        lookupAssoc im2 s =
          some ((lookupAssoc input_mapping s).getD [] ++ [in_name]) ∧
        ∀ t, t ≠ s → lookupAssoc im2 t = lookupAssoc input_mapping t) := by
  constructor
  · intro hallow hnotmem
    subst hallow
    have hc : inputs.contains s = false := by
      simpa using hnotmem
    refine ⟨"Warning! Did you forget to use !ii before " ++ s ++
        " in " ++ yaml_stem ++ ".wic?", ?_, ?_, ?_⟩
    · simp [process_raw_arg, reprTok, hc, hnotmem]
    · exact ⟨"Warning! Did you forget to use !ii before ",
             " in " ++ yaml_stem ++ ".wic?", by simp [String.append_assoc]⟩
    · exact ⟨"Warning! Did you forget to use !ii before " ++ s ++ " in ",
             "?", by simp [String.append_assoc]⟩
  · intro hmem
    have hc : inputs.contains s = true := by
      simpa using hmem
    cases hl : lookupAssoc input_mapping s with
    | some l =>
      refine ⟨updateAssoc input_mapping s (l ++ [in_name]), ?_, ?_, ?_⟩
      · simp [process_raw_arg, hc, hl, hmem]
      · rw [lookup_updateAssoc_self]
        rfl
      · intro t ht
        exact lookup_updateAssoc_ne _ _ _ _ ht
    | none =>
      refine ⟨updateAssoc input_mapping s [in_name], ?_, ?_, ?_⟩
      · simp [process_raw_arg, hc, hl, hmem]
      · rw [lookup_updateAssoc_self]
        rfl
      · intro t ht
        exact lookup_updateAssoc_ne _ _ _ _ ht

/-- Witness for C7: the undeclared token "y" with passthrough disallowed
produces the fatal diagnostic; the declared token "x" is recorded in the
input mapping. -/
theorem raw_token_binding_witness :
    (∃ msg, process_raw_arg false "wf" ["x"] [("x", ["a"])] "step1___p" (.str "y") =
        .error msg ∧
      (∃ a b, msg = a ++ "y" ++ b) ∧ (∃ c d, msg = c ++ ("wf" ++ ".wic") ++ d)) ∧
    (∃ im2, process_raw_arg false "wf" ["x"] [("x", ["a"])] "step1___p" (.str "x") =
        .ok (im2, .str "x") ∧
      lookupAssoc im2 "x" = some ((lookupAssoc [("x", ["a"])] "x").getD [] ++ ["step1___p"]) ∧
      ∀ t, t ≠ "x" → lookupAssoc im2 t = lookupAssoc [("x", ["a"])] t) :=
  ⟨(raw_token_binding false "wf" ["x"] [("x", ["a"])] "step1___p" "y").1 rfl
     (by decide),
   (raw_token_binding false "wf" ["x"] [("x", ["a"])] "step1___p" "x").2
     (by decide)⟩

/-! ## Automatic step insertion (compile_workflow_once, compiler.py lines
762-792, and insert_step_into_workflow, lines 931-967) -/

/-- StepId: (name stem, plugin namespace), equality structural
(wic_types.py, described in spec section 3). -/
structure StepId where
  stem : String
  plugin_ns : String
deriving DecidableEq, Repr

/-- One step of the yml AST as the insertion model needs it: the raw
key, and an optional body (`{stem: None}` is the inserted form). -/
structure YStep where
  key : String
  body : Option String
deriving DecidableEq, Repr

/-- Inference-rule annotations attached to an inserted step: output key
to converter-selection rule. -/
abbrev InfRules := List (String × String)

/-- The portion of a workflow AST that insert_step_into_workflow
touches: the ordered step list and the `wic: steps:` metadata block
keyed by 1-based `(index, step key)` pairs. -/
structure WYaml where
  steps : List YStep
  wicSteps : List ((Nat × String) × InfRules)
deriving DecidableEq, Repr

/-- Modelled from the spec: `utils.reindex_wic_steps` (utils.py is not
in the source tree).  The per-step metadata is keyed by 1-based index,
so annotations at or after the insertion position are shifted up by one
to keep pointing at their steps. -/
def reindex_wic_steps (ws : List ((Nat × String) × InfRules)) (i : Nat) :
    List ((Nat × String) × InfRules) :=
  ws.map (fun e => if i ≤ e.1.1 then ((e.1.1 + 1, e.1.2), e.2) else e)

/-- Model of insert_step_into_workflow (compiler.py lines 931-967).
`out_tool` stands for `tools[stepid].cwl['outputs']` as output key to
optional format, and `inference_rules` is the module-level table
initialized by the entry point (line 23).  The step `{stepid.stem:
None}` is inserted at index `i` (`steps_mod.insert(i, ...)`, line 946;
`List.insertIdx` agrees with Python `list.insert` for `i ≤ length`, and
the compiler always calls it with `i < len(steps)`), and the wic
metadata gains the inference annotation under the reindexed key. -/
def insert_step_into_workflow (yaml_tree_orig : WYaml) (stepid : StepId)
    (out_tool : List (String × Option String))
    (inference_rules : List (String × String)) (i : Nat) : WYaml :=
  let steps_mod := yaml_tree_orig.steps.insertIdx i { key := stepid.stem, body := none }
  let inf_dict : InfRules := out_tool.filterMap (fun p =>
    match p.2 with
    | some fmt => some (p.1, (lookupAssoc inference_rules fmt).getD "default")
    | none => none)
  let ws := reindex_wic_steps yaml_tree_orig.wicSteps (i + 1)
  { steps := steps_mod,
    wicSteps := updateAssoc ws (i + 1, stepid.stem) inf_dict }

/-- Outcome of the insertion check at the end of the required-args loop:
fall through, or an early return carrying the chosen candidate, whether
the multiple-candidates warning was printed, and the modified AST that
the returned CompilerInfo carries as its node AST. -/
inductive InsertOutcome
  | noInsertion
  | inserted (chosen : StepId) (warned : Bool) (yml : WYaml)
deriving DecidableEq, Repr

/-- Model of the automatic-insertion block (compiler.py lines 772-792):
`insertions = list(set(insertions))` is modelled by `List.dedup` (Python
set iteration order is unspecified; the claim fixes only "first after
deduplication"); when the deduplicated list is non-empty and automatic
insertion is enabled, the first candidate is chosen, the warning is
printed exactly when more than one candidate remains, and
compile_workflow_once immediately returns a CompilerInfo whose node AST
is the modified tree. -/
def auto_insert (insert_steps_automatically : Bool) (insertions : List StepId)
    (yaml_tree_orig : WYaml) (out_tool : List (String × Option String))
    (inference_rules : List (String × String)) (i : Nat) : InsertOutcome :=
  let dedup := insertions.dedup
  if dedup.length ≠ 0 ∧ insert_steps_automatically then
    let insertion := dedup.headD { stem := "", plugin_ns := "" }
    .inserted insertion (decide (dedup.length ≠ 1))
      (insert_step_into_workflow yaml_tree_orig insertion out_tool inference_rules i)
  else .noInsertion

/-- C8.  Whenever edge inference proposes a non-empty candidate list and
automatic insertion is enabled, exactly one candidate — the first after
set-semantics deduplication — is inserted; the warning is printed iff
more than one distinct candidate remains (the deduplicated list is
duplicate-free and has the same members as the proposals); and the block
returns an early CompilerInfo whose node AST is the original AST with
the single step `{chosen.stem: None}` inserted at the current index. -/
theorem automatic_insertion_one_candidate (insertions : List StepId)
    (yaml_tree_orig : WYaml) (out_tool : List (String × Option String))
    (inference_rules : List (String × String)) (i : Nat)
    (hne : insertions ≠ []) (hi : i ≤ yaml_tree_orig.steps.length) :
    ∃ chosen warned yml,
      auto_insert true insertions yaml_tree_orig out_tool inference_rules i =
        .inserted chosen warned yml ∧
      chosen = insertions.dedup.headD { stem := "", plugin_ns := "" } ∧
      insertions.dedup.Nodup ∧
      (∀ x, x ∈ insertions.dedup ↔ x ∈ insertions) ∧
      (warned = true ↔ 1 < insertions.dedup.length) ∧
      yml.steps = yaml_tree_orig.steps.insertIdx i { key := chosen.stem, body := none } ∧
      yml.steps.length = yaml_tree_orig.steps.length + 1 := by
  have hd : insertions.dedup ≠ [] := by
    intro h
    exact hne ((List.dedup_eq_nil insertions).mp h)
  have hdlen : insertions.dedup.length ≠ 0 := by
    intro h
    exact hd (List.length_eq_zero.mp h)
  refine ⟨insertions.dedup.headD { stem := "", plugin_ns := "" },
          decide (insertions.dedup.length ≠ 1),
          insert_step_into_workflow yaml_tree_orig
            (insertions.dedup.headD { stem := "", plugin_ns := "" })
            out_tool inference_rules i,
          ?_, rfl, List.nodup_dedup _, fun x => List.mem_dedup, ?_, ?_, ?_⟩
  · simp only [auto_insert]
    rw [if_pos ⟨hdlen, trivial⟩]
  · constructor
    · intro hw
      have : insertions.dedup.length ≠ 1 := by simpa using hw
      omega
    · intro hlt
      simp only [decide_eq_true_eq]
      omega
  · simp [insert_step_into_workflow]
  · simp only [insert_step_into_workflow]
    exact List.length_insertIdx _ _ hi

/-- Witness for C8: two proposals with a duplicate — the first distinct
candidate is inserted into a one-step workflow at index 0 and the
warning fires. -/
theorem automatic_insertion_one_candidate_witness :
    ∃ chosen warned yml,
      auto_insert true
          [⟨"conv_a", "global"⟩, ⟨"conv_a", "global"⟩, ⟨"conv_b", "global"⟩]
          ({ steps := [{ key := "stepX", body := none }], wicSteps := [] } : WYaml)
          [] [] 0 =
        .inserted chosen warned yml ∧
      chosen = ([⟨"conv_a", "global"⟩, ⟨"conv_a", "global"⟩,
          (⟨"conv_b", "global"⟩ : StepId)].dedup).headD { stem := "", plugin_ns := "" } ∧
      ([⟨"conv_a", "global"⟩, ⟨"conv_a", "global"⟩,
          (⟨"conv_b", "global"⟩ : StepId)].dedup).Nodup ∧
      (∀ x, x ∈ [⟨"conv_a", "global"⟩, ⟨"conv_a", "global"⟩,
          (⟨"conv_b", "global"⟩ : StepId)].dedup ↔
        x ∈ [⟨"conv_a", "global"⟩, ⟨"conv_a", "global"⟩,
          (⟨"conv_b", "global"⟩ : StepId)]) ∧
      (warned = true ↔ 1 < ([⟨"conv_a", "global"⟩, ⟨"conv_a", "global"⟩,
          (⟨"conv_b", "global"⟩ : StepId)].dedup).length) ∧
      yml.steps = ([({ key := "stepX", body := none } : YStep)].insertIdx 0
        { key := chosen.stem, body := none }) ∧
      yml.steps.length = [({ key := "stepX", body := none } : YStep)].length + 1 :=
  automatic_insertion_one_candidate
    [⟨"conv_a", "global"⟩, ⟨"conv_a", "global"⟩, ⟨"conv_b", "global"⟩]
    ({ steps := [{ key := "stepX", body := none }], wicSteps := [] } : WYaml) [] [] 0
    (by decide) (by decide)

/-! ## Tool registry during compilation (compile_workflow_once,
compiler.py lines 214-231 and 285-331) -/

/-- A Tool Registry entry: run path and CWL contents (the contents are
abstracted to a tag; only identity and presence matter here). -/
structure ToolEntry where
  run_path : String
  cwl : String
deriving DecidableEq, Repr

/-- Character-level worker for `splitChar`. -/
def splitCharAux (c : Char) : List Char → List Char → List (List Char)
  | [], acc => [acc.reverse]
  | x :: rest, acc =>
    if x = c then acc.reverse :: splitCharAux c rest []
    else splitCharAux c rest (x :: acc)

/-- Split a string at every occurrence of one character, by structural
recursion over the character list so concrete instances evaluate inside
the kernel. -/
def splitChar (c : Char) (s : String) : List String :=
  (splitCharAux c s.toList []).map List.asString

/-- Python `Path(p).stem`: the final path component with its last
extension removed. -/
def pathStem (p : String) : String :=
  let base := ((splitChar '/' p).getLast?).getD ""
  let parts := splitChar '.' base
  if parts.length ≤ 1 then base else String.intercalate "." parts.dropLast

/-- The fields of one steps[i] entry that drive tool resolution: the raw
step key, the optional `run:` tag, and whether the key is in subkeys
(a pre-loaded subworkflow with an attached subtree). -/
structure CStep where
  key : String
  runTag : Option String
  inSubkeys : Bool
deriving DecidableEq, Repr

/-- Model of the tool-resolution part of the step loop (compiler.py
lines 214-231 and 310-331).  For a subworkflow step (`step_key in
subkeys`) the source recursively compiles the subworkflow and constructs
`tool_i = Tool(stem + '.cwl', sub_node_data.compiled_cwl)` (line 287),
which is appended to the local `tools_lst` only: no statement in
compiler.py writes to the `tools` registry, so it is returned unchanged.
For other steps the registry is consulted under the step key's stem and
then under the run-tag stem, raising when both are absent (lines
315-323). -/
def resolve_step_tool (tools : List (StepId × ToolEntry)) (plugin_ns_i : String)
    (st : CStep) : Except String (ToolEntry × List (StepId × ToolEntry)) :=
  let stem := pathStem st.key
  let stepid : StepId := ⟨stem, plugin_ns_i⟩
  if st.inSubkeys then
    .ok (⟨stem ++ ".cwl", "compiled:" ++ st.key⟩, tools)
  else
    let run_tag_stem := match st.runTag with
      | some r => pathStem r
      | none => ""
    let stepid_runtag : StepId := ⟨run_tag_stem, "global"⟩
    match lookupAssoc tools stepid with
    | some t => .ok (t, tools)
    | none =>
      match lookupAssoc tools stepid_runtag with
      | some t => .ok (t, tools)
      | none =>
        .error ("Error! Neither " ++ stepid.stem ++ " nor " ++ stepid_runtag.stem ++
                " found!, check your 'search_paths_cwl' in global_config.json")

/-- The step loop threading the registry through tool resolution in
sequence order. -/
def process_steps (plugin_ns_i : String) :
    List CStep → List (StepId × ToolEntry) → Except String (List (StepId × ToolEntry))
  | [], tools => .ok tools
  | st :: rest, tools => do
    let r ← resolve_step_tool tools plugin_ns_i st
    process_steps plugin_ns_i rest r.2

/-- The subworkflow step sub.wic, pre-loaded with its subtree. -/
def subStep : CStep := { key := "sub.wic", runTag := none, inSubkeys := true }

/-- A later sibling step that refers to the compiled subworkflow by
name, with no run tag and no subtree of its own. -/
def siblingStep : CStep := { key := "sub", runTag := none, inSubkeys := false }

/-- C9.  The claim says that after a subworkflow step is recursively
compiled, an entry for it is present in the registry under its StepId so
that a later sibling resolves by name, and that the registry is
append-only.  The code keeps the registry append-only only vacuously —
it never writes to `tools` at all (third conjunct: compiling any
subworkflow step returns the registry unchanged), contradicting the
docstring at compiler.py lines 126-127 ("yml files that have been
compiled to CWL SubWorkflows are also added during compilation") and
spec section 6.  Consequently a workflow [sub.wic, sub] over an empty
registry errors on the sibling step (second conjunct) where the claim
requires the entry for StepId("sub", "global") to be present. -/
theorem registry_never_gains_subworkflow_entries :
    (resolve_step_tool [] "global" subStep).map (fun p => p.2) = .ok [] ∧
    process_steps "global" [subStep, siblingStep] [] =
      .error ("Error! Neither sub nor  found!, " ++
              "check your 'search_paths_cwl' in global_config.json") ∧
    ∀ (tools : List (StepId × ToolEntry)) (key : String) (runTag : Option String),
      (resolve_step_tool tools "global"
        { key := key, runTag := runTag, inSubkeys := true }).map (fun p => p.2) =
        .ok tools := by
  refine ⟨rfl, rfl, ?_⟩
  intro tools key runTag
  rfl

/-! ## Frame property of compile_workflow_once (compiler.py lines
141-146 and 944-946)

To state that the caller's AST object is structurally unchanged, the
Python object graph is embedded in an explicit heap: addresses index a
list of objects, `copy.deepcopy` reads the value tree out of the heap
and re-allocates it at fresh addresses, and every rewrite is an in-place
write.  The claim then becomes a frame theorem: all writes target
addresses at or above the allocation watermark taken at entry, so
reading the caller's root afterwards yields the same tree. -/

/-- Heap object: a leaf value or an internal node with a tag and child
addresses, modelling Python's nested dict/list AST representation. -/
inductive PObj
  | leaf (v : Nat)
  | node (tag : Nat) (children : List Nat)
deriving DecidableEq, Repr

/-- Child addresses of an object. -/
def PObj.childAddrs : PObj → List Nat
  | .leaf _ => []
  | .node _ cs => cs

/-- A heap of Python objects; allocation appends, addresses are list
indices. -/
structure Heap where
  objs : List PObj
deriving DecidableEq, Repr

/-- Dereference an address. -/
def Heap.get (h : Heap) (a : Nat) : Option PObj := h.objs[a]?

/-- In-place mutation of the object at an address. -/
def writeAt (h : Heap) (a : Nat) (o : PObj) : Heap := ⟨h.objs.set a o⟩

/-- Every stored object's children point below `n` (heap
well-formedness at watermark `n`). -/
def closedBelow (n : Nat) (h : Heap) : Prop :=
  ∀ o ∈ h.objs, ∀ c ∈ o.childAddrs, c < n

instance (n : Nat) (h : Heap) : Decidable (closedBelow n h) :=
  inferInstanceAs (Decidable (∀ o ∈ h.objs, ∀ c ∈ o.childAddrs, c < n))

/-- Every object stored at or above `n` has children at or above `n`:
the freshly allocated region never points back into the old region. -/
def newOk (n : Nat) (h : Heap) : Prop :=
  ∀ a, n ≤ a → ∀ o, h.get a = some o → ∀ c ∈ o.childAddrs, n ≤ c

mutual
/-- Value trees: what a Python AST value is, independent of where it is
allocated. -/
inductive PTree
  | leaf (v : Nat)
  | node (tag : Nat) (children : PForest)
/-- Child list of a value tree node (mutually inductive so that
allocation can recurse structurally). -/
inductive PForest
  | fnil
  | fcons (t : PTree) (rest : PForest)
end

/-- Read the forest of trees rooted at a list of addresses, with a fuel
bound on depth (structural on fuel so concrete reads evaluate in the
kernel). -/
def readF (h : Heap) : Nat → List Nat → Option PForest
  | 0, _ => none
  | _ + 1, [] => some .fnil
  | fuel + 1, a :: rest =>
    match h.get a with
    | none => none
    | some (.leaf v) =>
      match readF h fuel rest with
      | some f => some (.fcons (.leaf v) f)
      | none => none
    | some (.node tag cs) =>
      match readF h fuel cs, readF h fuel rest with
      | some f1, some f2 => some (.fcons (.node tag f1) f2)
      | _, _ => none

/-- Read the tree rooted at one address. -/
def readTree (h : Heap) (fuel : Nat) (a : Nat) : Option PTree :=
  match readF h fuel [a] with
  | some (.fcons t .fnil) => some t
  | _ => none

/-- Allocate a forest of value trees: children first, then the node,
returning the new heap and the root addresses in order.  Models the
re-allocation half of `copy.deepcopy`. -/
def allocF : Heap → PForest → Heap × List Nat
  | h, .fnil => (h, [])
  | h, .fcons (.leaf v) rest =>
    let h1 : Heap := ⟨h.objs ++ [.leaf v]⟩
    let p := allocF h1 rest
    (p.1, h.objs.length :: p.2)
  | h, .fcons (.node tag cs) rest =>
    let p1 := allocF h cs
    let h2 : Heap := ⟨p1.1.objs ++ [.node tag p1.2]⟩
    let p2 := allocF h2 rest
    (p2.1, p1.1.objs.length :: p2.2)

/-- Allocate one value tree, returning its root address. -/
def allocTree (h : Heap) (t : PTree) : Heap × Nat :=
  match allocF h (.fcons t .fnil) with
  | (h2, a :: _) => (h2, a)
  | (h2, []) => (h2, 0)

/-- In-place rewrite of one object, keeping its children: stands for
adding or replacing keys of a mapping (header insertion, binding
rewrites, step renaming). -/
def bumpObj : PObj → PObj
  | .leaf v => .leaf (v + 1)
  | .node t cs => .node (t + 1) cs

/-- In-place key update of the object at one address (no-op when the
address is dangling). -/
def bumpAt (h : Heap) (a : Nat) : Heap :=
  match h.get a with
  | some o => writeAt h a (bumpObj o)
  | none => h

/-- Header insertion (compiler.py lines 170-177) modelled as an in-place
update of the working copy's root object. -/
def headerRewrite (h : Heap) (c : Nat) : Heap := bumpAt h c

/-- Step binding rewrites and step renaming (compiler.py lines 486-700
and 851-868) modelled as in-place updates of the objects directly
reachable from the working copy's root. -/
def bindingsRewrite (h : Heap) (c : Nat) : Heap :=
  match h.get c with
  | some (.node _ cs) => cs.foldl bumpAt h
  | _ => h

/-- insert_step_into_workflow on the heap (compiler.py lines 944-946):
allocates the new step object and splices its address into the child
list of `yaml_tree_orig`'s root — the deep copy made at entry, not the
caller's tree. -/
def insertRewrite (h : Heap) (c : Nat) (i : Nat) : Heap :=
  match (⟨h.objs ++ [PObj.leaf 0]⟩ : Heap).get c with
  | some (.node t cs) =>
    writeAt ⟨h.objs ++ [PObj.leaf 0]⟩ c (.node t (cs.insertIdx i h.objs.length))
  | _ => ⟨h.objs ++ [PObj.leaf 0]⟩

/-- Model of compile_workflow_once's handling of its yaml_tree_ast
argument (compiler.py lines 141-146): the tree is deep-copied twice at
entry (`yaml_tree`, the working copy, and `yaml_tree_orig`, the copy
returned to the caller), all header/binding/renaming rewrites hit the
working copy, and automatic step insertion mutates only the second
copy.  Returns the final heap and the address of the AST the returned
CompilerInfo carries. -/
def compile_workflow_once_heap (h : Heap) (root fuel i : Nat) (doInsert : Bool) :
    Option (Heap × Nat) :=
  match readTree h fuel root with
  | none => none
  | some t =>
    let p1 := allocTree h t
    let p2 := allocTree p1.1 t
    let h3 := headerRewrite p2.1 p1.2
    let h4 := bindingsRewrite h3 p1.2
    let h5 := if doInsert then insertRewrite h4 p2.2 i else h4
    some (h5, if doInsert then p2.2 else p1.2)


/-- Children are unchanged by a key update. -/
theorem childAddrs_bump (o : PObj) : (bumpObj o).childAddrs = o.childAddrs := by
  cases o <;> rfl

/-- Writing at one address leaves every other address unchanged. -/
theorem get_writeAt_ne (h : Heap) (a b : Nat) (o : PObj) (hne : a ≠ b) :
    (writeAt h a o).get b = h.get b := by
  simp [writeAt, Heap.get, List.getElem?_set_ne hne]

/-- Appending objects leaves addresses below the old size unchanged. -/
theorem get_append_lt (h : Heap) (ext : List PObj) (a : Nat)
    (ha : a < h.objs.length) : (Heap.mk (h.objs ++ ext)).get a = h.get a := by
  simp [Heap.get, List.getElem?_append_left ha]

/-- Dereference after appending one object. -/
theorem get_append_single (h : Heap) (o : PObj) (a : Nat) :
    (Heap.mk (h.objs ++ [o])).get a =
      if a < h.objs.length then h.get a
      else if a = h.objs.length then some o else none := by
  by_cases h1 : a < h.objs.length
  · rw [if_pos h1]
    exact get_append_lt h [o] a h1
  · rw [if_neg h1]
    by_cases h2 : a = h.objs.length
    · subst h2
      rw [if_pos rfl]
      simp [Heap.get, List.getElem?_concat_length]
    · rw [if_neg h2]
      have hlen : (h.objs ++ [o]).length ≤ a := by
        simp only [List.length_append, List.length_singleton]
        omega
      simp [Heap.get, List.getElem?_eq_none hlen]

/-- Appending an object whose children are at or above the watermark
preserves the fresh-region invariant. -/
theorem newOk_append (h : Heap) (o : PObj) (n : Nat) (hok : newOk n h)
    (ho : ∀ c ∈ o.childAddrs, n ≤ c) : newOk n ⟨h.objs ++ [o]⟩ := by
  intro a han o2 hget c hc
  rw [get_append_single] at hget
  by_cases h1 : a < h.objs.length
  · rw [if_pos h1] at hget
    exact hok a han o2 hget c hc
  · rw [if_neg h1] at hget
    by_cases h2 : a = h.objs.length
    · rw [if_pos h2] at hget
      cases hget
      exact ho c hc
    · rw [if_neg h2] at hget
      exact Option.noConfusion hget

/-- allocF only appends objects, and every returned root address is at
or above the old size. -/
theorem allocF_spec (h : Heap) (f : PForest) :
    (∃ ext, (allocF h f).1.objs = h.objs ++ ext) ∧
    (∀ a ∈ (allocF h f).2, h.objs.length ≤ a) := by
  induction h, f using allocF.induct with
  | case1 h =>
    exact ⟨⟨[], by simp [allocF]⟩, by simp [allocF]⟩
  | case2 h v rest h1 ih =>
    obtain ⟨⟨ext, hext⟩, haddr⟩ := ih
    constructor
    · refine ⟨PObj.leaf v :: ext, ?_⟩
      show (allocF ⟨h.objs ++ [PObj.leaf v]⟩ rest).1.objs = _
      rw [hext]
      simp
    · intro a ha
      simp only [allocF, List.mem_cons] at ha
      rcases ha with rfl | ha
      · exact Nat.le_refl _
      · have := haddr a ha
        simp only [List.length_append, List.length_singleton] at this
        omega
  | case3 h tag cs rest p1 h2 ih1 ih2 =>
    obtain ⟨⟨e1, he1⟩, ha1⟩ := ih1
    obtain ⟨⟨e2, he2⟩, ha2⟩ := ih2
    unfold h2 p1 at he2 ha2
    constructor
    · refine ⟨e1 ++ [PObj.node tag (allocF h cs).2] ++ e2, ?_⟩
      show (allocF ⟨(allocF h cs).1.objs ++ [PObj.node tag (allocF h cs).2]⟩ rest).1.objs = _
      rw [he2, he1]
      simp
    · intro a ha
      simp only [allocF, List.mem_cons] at ha
      rcases ha with rfl | ha
      · rw [he1]
        simp
      · have h22 := ha2 a ha
        have hge : h.objs.length ≤ (allocF h cs).1.objs.length := by
          rw [he1]
          simp
        simp only [List.length_append, List.length_cons, List.length_nil] at h22
        omega

/-- allocF preserves the fresh-region invariant. -/
theorem allocF_newOk (h : Heap) (f : PForest) :
    ∀ n, n ≤ h.objs.length → newOk n h → newOk n (allocF h f).1 := by
  induction h, f using allocF.induct with
  | case1 h => intro n _ hok; exact hok
  | case2 h v rest h1 ih =>
    intro n hn hok
    show newOk n (allocF ⟨h.objs ++ [PObj.leaf v]⟩ rest).1
    apply ih
    · simp
      omega
    · refine newOk_append h _ n hok ?_
      intro c hc
      simp [PObj.childAddrs] at hc
  | case3 h tag cs rest p1 h2 ih1 ih2 =>
    intro n hn hok
    show newOk n (allocF ⟨(allocF h cs).1.objs ++ [PObj.node tag (allocF h cs).2]⟩ rest).1
    have hok1 : newOk n (allocF h cs).1 := ih1 n hn hok
    have hsz : h.objs.length ≤ (allocF h cs).1.objs.length := by
      obtain ⟨e1, he1⟩ := (allocF_spec h cs).1
      rw [he1]
      simp
    apply ih2
    · show n ≤ ((allocF h cs).1.objs ++ [PObj.node tag (allocF h cs).2]).length
      simp
      omega
    · refine newOk_append _ _ _ hok1 ?_
      intro c hc
      simp only [PObj.childAddrs] at hc
      have := (allocF_spec h cs).2 c hc
      omega

/-- allocF on a one-tree forest always returns a root address. -/
theorem allocF_cons_shape (t : PTree) (rest : PForest) (h : Heap) :
    ∃ h2 a as2, allocF h (.fcons t rest) = (h2, a :: as2) := by
  cases t with
  | leaf v => exact ⟨_, _, _, rfl⟩
  | node tag cs => exact ⟨_, _, _, rfl⟩

/-- allocTree only appends, and the returned root address is fresh. -/
theorem allocTree_spec (h : Heap) (t : PTree) :
    (∃ ext, (allocTree h t).1.objs = h.objs ++ ext) ∧
    h.objs.length ≤ (allocTree h t).2 := by
  obtain ⟨h2, a, as2, heq⟩ := allocF_cons_shape t .fnil h
  have h1 := (allocF_spec h (.fcons t .fnil)).1
  have h2a := (allocF_spec h (.fcons t .fnil)).2
  rw [heq] at h1 h2a
  constructor
  · simpa [allocTree, heq] using h1
  · have := h2a a (List.mem_cons_self a as2)
    simpa [allocTree, heq] using this

/-- allocTree preserves the fresh-region invariant. -/
theorem allocTree_newOk (h : Heap) (t : PTree) (n : Nat) (hn : n ≤ h.objs.length)
    (hok : newOk n h) : newOk n (allocTree h t).1 := by
  obtain ⟨h2, a, as2, heq⟩ := allocF_cons_shape t .fnil h
  have := allocF_newOk h (.fcons t .fnil) n hn hok
  rw [heq] at this
  simpa [allocTree, heq] using this

/-- Frame invariant relating the heap at entry (`h0`) to the heap after
some rewriting steps (`hh`): the old region below the watermark `n` is
untouched, the fresh region never points into the old region, and the
heap has not shrunk. -/
def frameOk (n : Nat) (h0 hh : Heap) : Prop :=
  (∀ b, b < n → hh.get b = h0.get b) ∧ newOk n hh ∧ n ≤ hh.objs.length

/-- The invariant holds at entry with the watermark set to the heap
size. -/
theorem frameOk_init (h : Heap) : frameOk h.objs.length h h := by
  refine ⟨fun b _ => rfl, ?_, Nat.le_refl _⟩
  intro a han o hget c hc
  simp only [Heap.get, List.getElem?_eq_none han] at hget
  exact Option.noConfusion hget

/-- Deep-copy allocation preserves the invariant and yields a fresh
address. -/
theorem frameOk_allocTree (n : Nat) (h0 h : Heap) (t : PTree)
    (hf : frameOk n h0 h) :
    frameOk n h0 (allocTree h t).1 ∧ n ≤ (allocTree h t).2 ∧
      h.objs.length ≤ (allocTree h t).1.objs.length := by
  obtain ⟨hagree, hok, hsz⟩ := hf
  obtain ⟨⟨ext, hext⟩, haddr⟩ := allocTree_spec h t
  have hgrow : h.objs.length ≤ (allocTree h t).1.objs.length := by
    rw [hext]
    simp
  refine ⟨⟨?_, allocTree_newOk h t n hsz hok, by omega⟩, by omega, hgrow⟩
  intro b hb
  have hb2 : b < h.objs.length := by omega
  have hh : (allocTree h t).1.get b = h.get b := by
    simp only [Heap.get, hext]
    exact List.getElem?_append_left hb2
  rw [hh]
  exact hagree b hb

/-- An in-place key update at a fresh address preserves the invariant. -/
theorem frameOk_bumpAt (n : Nat) (h0 h : Heap) (a : Nat) (ha : n ≤ a)
    (hf : frameOk n h0 h) : frameOk n h0 (bumpAt h a) := by
  obtain ⟨hagree, hok, hsz⟩ := hf
  unfold bumpAt
  cases hg : h.get a with
  | none => exact ⟨hagree, hok, hsz⟩
  | some o =>
    refine ⟨?_, ?_, ?_⟩
    · intro b hb
      rw [get_writeAt_ne h a b _ (by omega)]
      exact hagree b hb
    · intro a2 ha2 o2 hget c hc
      by_cases hae : a2 = a
      · subst hae
        have hlt : a2 < h.objs.length := by
          by_contra hcon
          have hg2 : h.objs[a2]? = some o := hg
          rw [List.getElem?_eq_none (Nat.le_of_not_lt hcon)] at hg2
          exact Option.noConfusion hg2
        simp only [writeAt, Heap.get, List.getElem?_set, if_pos rfl, if_pos hlt] at hget
        cases hget
        rw [childAddrs_bump] at hc
        exact hok a2 ha2 o hg c hc
      · rw [get_writeAt_ne h a a2 _ (fun hh => hae hh.symm)] at hget
        exact hok a2 ha2 o2 hget c hc
    · simp only [writeAt, List.length_set]
      exact hsz

/-- Folding in-place key updates over fresh addresses preserves the
invariant. -/
theorem frameOk_fold_bumpAt (n : Nat) (h0 : Heap) :
    ∀ (cs : List Nat) (h : Heap), (∀ x ∈ cs, n ≤ x) → frameOk n h0 h →
      frameOk n h0 (cs.foldl bumpAt h) := by
  intro cs
  induction cs with
  | nil => intro h _ hf; exact hf
  | cons a rest ih =>
    intro h hcs hf
    simp only [List.foldl_cons]
    exact ih (bumpAt h a) (fun x hx => hcs x (List.mem_cons_of_mem a hx))
      (frameOk_bumpAt n h0 h a (hcs a (List.mem_cons_self a rest)) hf)

/-- The header rewrite targets the fresh working copy only. -/
theorem frameOk_headerRewrite (n : Nat) (h0 h : Heap) (c : Nat) (hc : n ≤ c)
    (hf : frameOk n h0 h) : frameOk n h0 (headerRewrite h c) :=
  frameOk_bumpAt n h0 h c hc hf

/-- The binding/renaming rewrites target the fresh working copy and its
children, which are fresh as well. -/
theorem frameOk_bindingsRewrite (n : Nat) (h0 h : Heap) (c : Nat) (hc : n ≤ c)
    (hf : frameOk n h0 h) : frameOk n h0 (bindingsRewrite h c) := by
  unfold bindingsRewrite
  cases hg : h.get c with
  | none => exact hf
  | some o =>
    cases o with
    | leaf v => exact hf
    | node tag cs =>
      refine frameOk_fold_bumpAt n h0 cs h ?_ hf
      intro x hx
      exact hf.2.1 c hc _ hg x hx

/-- Membership in insertIdx without a length side condition. -/
theorem mem_insertIdx_weak {x b : Nat} {i : Nat} {l : List Nat}
    (hx : x ∈ l.insertIdx i b) : x = b ∨ x ∈ l := by
  by_cases hle : i ≤ l.length
  · exact (List.mem_insertIdx hle).mp hx
  · rw [List.insertIdx_of_length_lt l b i (by omega)] at hx
    exact Or.inr hx

/-- The step insertion allocates a fresh object and splices it into the
fresh original-copy root only. -/
theorem frameOk_insertRewrite (n : Nat) (h0 h : Heap) (c i : Nat) (hc : n ≤ c)
    (hf : frameOk n h0 h) : frameOk n h0 (insertRewrite h c i) := by
  obtain ⟨hagree, hok, hsz⟩ := hf
  have hf1 : frameOk n h0 ⟨h.objs ++ [PObj.leaf 0]⟩ := by
    refine ⟨?_, ?_, ?_⟩
    · intro b hb
      rw [get_append_lt h _ b (by omega)]
      exact hagree b hb
    · refine newOk_append h _ n hok ?_
      intro x hx
      simp [PObj.childAddrs] at hx
    · simp
      omega
  obtain ⟨hagree1, hok1, hsz1⟩ := hf1
  unfold insertRewrite
  cases hg : (⟨h.objs ++ [PObj.leaf 0]⟩ : Heap).get c with
  | none => exact ⟨hagree1, hok1, hsz1⟩
  | some o =>
    cases o with
    | leaf v => exact ⟨hagree1, hok1, hsz1⟩
    | node tag cs =>
      refine ⟨?_, ?_, ?_⟩
      · intro b hb
        rw [get_writeAt_ne _ c b _ (by omega)]
        exact hagree1 b hb
      · intro a2 ha2 o2 hget x hx
        by_cases hae : a2 = c
        · subst hae
          have hlt : a2 < (h.objs ++ [PObj.leaf 0]).length := by
            by_contra hcon
            have hg2 : (h.objs ++ [PObj.leaf 0])[a2]? = some (PObj.node tag cs) := hg
            rw [List.getElem?_eq_none (Nat.le_of_not_lt hcon)] at hg2
            exact Option.noConfusion hg2
          simp only [writeAt, Heap.get, List.getElem?_set, if_pos rfl, if_pos hlt] at hget
          cases hget
          simp only [PObj.childAddrs] at hx
          rcases mem_insertIdx_weak hx with rfl | hx2
          · omega
          · exact hok1 a2 ha2 _ hg x hx2
        · rw [get_writeAt_ne _ c a2 _ (fun hh => hae hh.symm)] at hget
          exact hok1 a2 ha2 o2 hget x hx
      · simp only [writeAt, List.length_set]
        exact hsz1

/-- Reading below the watermark only depends on the heap below the
watermark, as long as the original heap is closed below it. -/
theorem readF_frame (h h2 : Heap) (n : Nat)
    (hagree : ∀ b, b < n → h2.get b = h.get b)
    (hclosed : closedBelow n h) :
    ∀ (fuel : Nat) (addrs : List Nat), (∀ a ∈ addrs, a < n) →
      readF h2 fuel addrs = readF h fuel addrs := by
  intro fuel
  induction fuel with
  | zero => intro addrs _; rfl
  | succ m ih =>
    intro addrs haddrs
    cases addrs with
    | nil => rfl
    | cons a rest =>
      have ha : a < n := haddrs a (List.mem_cons_self a rest)
      have hrest : ∀ x ∈ rest, x < n := fun x hx => haddrs x (List.mem_cons_of_mem a hx)
      have hga : h2.get a = h.get a := hagree a ha
      show (match h2.get a with
        | none => none
        | some (PObj.leaf v) =>
          match readF h2 m rest with
          | some f => some (PForest.fcons (PTree.leaf v) f)
          | none => none
        | some (PObj.node tag cs) =>
          match readF h2 m cs, readF h2 m rest with
          | some f1, some f2 => some (PForest.fcons (PTree.node tag f1) f2)
          | _, _ => (none : Option PForest)) =
        (match h.get a with
        | none => none
        | some (PObj.leaf v) =>
          match readF h m rest with
          | some f => some (PForest.fcons (PTree.leaf v) f)
          | none => none
        | some (PObj.node tag cs) =>
          match readF h m cs, readF h m rest with
          | some f1, some f2 => some (PForest.fcons (PTree.node tag f1) f2)
          | _, _ => (none : Option PForest))
      rw [hga]
      cases hgx : h.get a with
      | none => rfl
      | some o =>
        cases o with
        | leaf v =>
          rw [ih rest hrest]
        | node tag cs =>
          have hcs : ∀ c ∈ cs, c < n := by
            intro c hc
            have hmem : PObj.node tag cs ∈ h.objs := List.getElem?_mem hgx
            exact hclosed _ hmem c hc
          simp only [ih cs hcs, ih rest hrest]

/-- readTree version of the frame lemma. -/
theorem readTree_frame (h h2 : Heap) (n : Nat)
    (hagree : ∀ b, b < n → h2.get b = h.get b)
    (hclosed : closedBelow n h) (fuel root : Nat) (hroot : root < n) :
    readTree h2 fuel root = readTree h fuel root := by
  unfold readTree
  rw [readF_frame h h2 n hagree hclosed fuel [root] (by intro a ha; simp at ha; omega)]

/-- C10.  compile_workflow_once leaves its yaml_tree_ast argument
structurally unchanged: both deep copies are made at entry, every
rewrite (header insertion, binding rewrites, step renaming, automatic
step insertion) writes only at addresses allocated at or after those
copies, so re-reading the caller's root after the call yields the same
tree. -/
theorem compile_workflow_once_preserves_caller_ast
    (h : Heap) (root fuel i : Nat) (doInsert : Bool) (t : PTree)
    (hclosed : closedBelow h.objs.length h)
    (hroot : root < h.objs.length)
    (hread : readTree h fuel root = some t) :
    ∀ h2 a, compile_workflow_once_heap h root fuel i doInsert = some (h2, a) →
      readTree h2 fuel root = some t := by
  intro h2 a heq
  unfold compile_workflow_once_heap at heq
  rw [hread] at heq
  have hstep1 := frameOk_allocTree h.objs.length h h t (frameOk_init h)
  obtain ⟨hf1, hc1, _⟩ := hstep1
  have hstep2 := frameOk_allocTree h.objs.length h (allocTree h t).1 t hf1
  obtain ⟨hf2, hc2, _⟩ := hstep2
  have hf3 := frameOk_headerRewrite h.objs.length h _ (allocTree h t).2 hc1 hf2
  have hf4 := frameOk_bindingsRewrite h.objs.length h _ (allocTree h t).2 hc1 hf3
  have hf5 : frameOk h.objs.length h
      (if doInsert then
        insertRewrite
          (bindingsRewrite
            (headerRewrite (allocTree (allocTree h t).1 t).1 (allocTree h t).2)
            (allocTree h t).2)
          (allocTree (allocTree h t).1 t).2 i
       else
        bindingsRewrite
          (headerRewrite (allocTree (allocTree h t).1 t).1 (allocTree h t).2)
          (allocTree h t).2) := by
    cases doInsert with
    | false => exact hf4
    | true => exact frameOk_insertRewrite h.objs.length h _ _ i hc2 hf4
  have hh2 : h2 = (if doInsert then
        insertRewrite
          (bindingsRewrite
            (headerRewrite (allocTree (allocTree h t).1 t).1 (allocTree h t).2)
            (allocTree h t).2)
          (allocTree (allocTree h t).1 t).2 i
       else
        bindingsRewrite
          (headerRewrite (allocTree (allocTree h t).1 t).1 (allocTree h t).2)
          (allocTree h t).2) := by
    have := Option.some.inj heq
    exact (congrArg Prod.fst this).symm
  rw [hh2, readTree_frame h _ h.objs.length hf5.1 hclosed fuel root hroot]
  exact hread

/-- Witness for C10: a two-object caller heap (a leaf and its parent
node); after a full rewriting pass with an insertion, reading the
caller's root still yields the original tree. -/
theorem compile_workflow_once_preserves_caller_ast_witness :
    readTree (⟨[PObj.leaf 5, PObj.node 0 [0], PObj.leaf 6, PObj.node 1 [2],
        PObj.leaf 5, PObj.node 0 [6, 4], PObj.leaf 0]⟩ : Heap) 3 1 =
      some (PTree.node 0 (PForest.fcons (PTree.leaf 5) PForest.fnil)) :=
  compile_workflow_once_preserves_caller_ast ⟨[PObj.leaf 5, PObj.node 0 [0]]⟩ 1 3 0 true
    (PTree.node 0 (PForest.fcons (PTree.leaf 5) PForest.fnil))
    (by decide) (by decide) rfl
    (⟨[PObj.leaf 5, PObj.node 0 [0], PObj.leaf 6, PObj.node 1 [2],
        PObj.leaf 5, PObj.node 0 [6, 4], PObj.leaf 0]⟩ : Heap) 5 rfl

end Sophios
